import Mathlib

/-!
Shallow embedding of the `staticfifo` Rust crate (`src/lib.rs`): two
fixed-capacity ring buffers, `StaticFifoU8` and `StaticFifoU32`, each with
`new`, `is_empty`, `is_full`, `get`, `put`, `len`, `max_len` and the private
pointer increments.  Machine integers (`usize`, `u8`, `u32`) are modelled as
`Nat` / `Fin 256` / `Fin 4294967296`; the const-generic length `N` becomes an
ordinary `Nat` argument of `new`.  A Rust panic (modulo by zero, out-of-bounds
index) is modelled by returning `none`, so every fallible operation returns
`Option`.
-/

inductive StaticFifoError where
  | Empty
  | Full
deriving DecidableEq, Repr

/-- `StaticFifoU8<N>`: `buf: [u8; N]`, `read_ptr`, `write_ptr`,
`capacity: usize`.  The array becomes a list whose length is tracked by the
invariant below. -/
structure StaticFifoU8 where
  buf : List (Fin 256)
  read_ptr : Nat
  write_ptr : Nat
  capacity : Nat
deriving DecidableEq, Repr

namespace StaticFifoU8

/-- `StaticFifoU8::<N>::new()`: zeroed storage, both pointers 0, capacity N. -/
def new (N : Nat) : StaticFifoU8 :=
  { buf := List.replicate N 0, read_ptr := 0, write_ptr := 0, capacity := N }

/-- `increment_readptr`; `% 0` panics in Rust, hence `none` when capacity is 0. -/
def increment_readptr (f : StaticFifoU8) : Option StaticFifoU8 :=
  if f.capacity = 0 then none
  else some { f with read_ptr := (f.read_ptr + 1) % f.capacity }

/-- `increment_writeptr`; `% 0` panics in Rust, hence `none` when capacity is 0. -/
def increment_writeptr (f : StaticFifoU8) : Option StaticFifoU8 :=
  if f.capacity = 0 then none
  else some { f with write_ptr := (f.write_ptr + 1) % f.capacity }

/-- `is_empty()`: true iff `read_ptr == write_ptr`. -/
def is_empty (f : StaticFifoU8) : Bool :=
  decide (f.read_ptr = f.write_ptr)

/-- `is_full()`: `rp1 = (write_ptr+1) % capacity; rp1 == read_ptr`;
`% 0` panics in Rust, hence `none` when capacity is 0. -/
def is_full (f : StaticFifoU8) : Option Bool :=
  if f.capacity = 0 then none
  else some (decide ((f.write_ptr + 1) % f.capacity = f.read_ptr))

/-- `get()`: `Err(Empty)` when empty, else read `buf[read_ptr]` (panic = `none`
when out of bounds) and advance the read pointer. -/
def get (f : StaticFifoU8) : Option (Except StaticFifoError (Fin 256) × StaticFifoU8) :=
  if f.is_empty then some (Except.error StaticFifoError.Empty, f)
  else
    match f.buf[f.read_ptr]? with
    | none => none
    | some rv => (f.increment_readptr).map fun f2 => (Except.ok rv, f2)

/-- `put(data)`: `Err(Full)` when full, else write `buf[write_ptr] = data`
(panic = `none` when out of bounds) and advance the write pointer. -/
def put (f : StaticFifoU8) (data : Fin 256) : Option (Except StaticFifoError Unit × StaticFifoU8) :=
  match f.is_full with
  | none => none
  | some true => some (Except.error StaticFifoError.Full, f)
  | some false =>
    if f.write_ptr < f.buf.length then
      (increment_writeptr { f with buf := f.buf.set f.write_ptr data }).map
        fun f2 => (Except.ok (), f2)
    else none

/-- `len()`: wrapped case `(capacity - read_ptr) + write_ptr`, else
`write_ptr - read_ptr` (truncated `Nat` subtraction coincides with `usize`
subtraction on all in-range states). -/
def len (f : StaticFifoU8) : Nat :=
  if f.read_ptr > f.write_ptr then (f.capacity - f.read_ptr) + f.write_ptr
  else f.write_ptr - f.read_ptr

/-- `max_len()`: the raw storage length. -/
def max_len (f : StaticFifoU8) : Nat :=
  f.capacity

/-- Structural well-formedness for raw length `N`: capacity and storage length
are `N` and both pointers are in range. -/
def Inv (N : Nat) (f : StaticFifoU8) : Prop :=
  f.capacity = N ∧ f.buf.length = N ∧ f.read_ptr < N ∧ f.write_ptr < N

/-- States reachable from `new N` by non-panicking `get`/`put` calls
(failed `Empty`/`Full` calls included). -/
inductive Reachable (N : Nat) : StaticFifoU8 → Prop where
  | init : Reachable N (new N)
  | stepGet (f : StaticFifoU8) (r : Except StaticFifoError (Fin 256)) (f2 : StaticFifoU8) :
      Reachable N f → get f = some (r, f2) → Reachable N f2
  | stepPut (f : StaticFifoU8) (v : Fin 256) (r : Except StaticFifoError Unit)
      (f2 : StaticFifoU8) :
      Reachable N f → put f v = some (r, f2) → Reachable N f2

/-- Abstraction function: the stored values in first-in-first-out order,
read off from `read_ptr` for `len` slots, wrapping modulo the capacity. -/
def contents (f : StaticFifoU8) : List (Fin 256) :=
  (List.range f.len).map fun i => f.buf.getD ((f.read_ptr + i) % f.capacity) 0

/-- `k` consecutive `get()` calls, all required to succeed, collecting the
returned values in order. -/
def getAllOk : Nat → StaticFifoU8 → Option (List (Fin 256) × StaticFifoU8)
  | 0, f => some ([], f)
  | k+1, f =>
    match f.get with
    | some (Except.ok v, f1) => (getAllOk k f1).map fun p => (v :: p.1, p.2)
    | _ => none

/-- Consecutive `put()` calls of the given values, all required to succeed. -/
def putAllOk : List (Fin 256) → StaticFifoU8 → Option StaticFifoU8
  | [], f => some f
  | v :: vs, f =>
    match f.put v with
    | some (Except.ok _, f1) => putAllOk vs f1
    | _ => none

/-- Run a call sequence from a state; `none` in the list is a `get()` call and
`some v` a `put(v)` call.  Returns the number of successful puts, the number of
successful gets and the final state (or `none` if any call panicked). -/
def runCount : StaticFifoU8 → List (Option (Fin 256)) → Option (Nat × Nat × StaticFifoU8)
  | f, [] => some (0, 0, f)
  | f, none :: ops =>
    match f.get with
    | none => none
    | some (Except.ok _, f1) => (runCount f1 ops).map fun t => (t.1, t.2.1 + 1, t.2.2)
    | some (Except.error _, f1) => runCount f1 ops
  | f, some v :: ops =>
    match f.put v with
    | none => none
    | some (Except.ok _, f1) => (runCount f1 ops).map fun t => (t.1 + 1, t.2.1, t.2.2)
    | some (Except.error _, f1) => runCount f1 ops

end StaticFifoU8

/-- `StaticFifoU32<N>`: the hand-duplicated 4-byte-wide twin of
`StaticFifoU8` (`buf: [u32; N]`). -/
structure StaticFifoU32 where
  buf : List (Fin 4294967296)
  read_ptr : Nat
  write_ptr : Nat
  capacity : Nat
deriving DecidableEq, Repr

namespace StaticFifoU32

/-- `StaticFifoU32::<N>::new()`. -/
def new (N : Nat) : StaticFifoU32 :=
  { buf := List.replicate N 0, read_ptr := 0, write_ptr := 0, capacity := N }

/-- `increment_readptr` (u32 copy). -/
def increment_readptr (f : StaticFifoU32) : Option StaticFifoU32 :=
  if f.capacity = 0 then none
  else some { f with read_ptr := (f.read_ptr + 1) % f.capacity }

/-- `increment_writeptr` (u32 copy). -/
def increment_writeptr (f : StaticFifoU32) : Option StaticFifoU32 :=
  if f.capacity = 0 then none
  else some { f with write_ptr := (f.write_ptr + 1) % f.capacity }

/-- `is_empty()` (u32 copy). -/
def is_empty (f : StaticFifoU32) : Bool :=
  decide (f.read_ptr = f.write_ptr)

/-- `is_full()` (u32 copy). -/
def is_full (f : StaticFifoU32) : Option Bool :=
  if f.capacity = 0 then none
  else some (decide ((f.write_ptr + 1) % f.capacity = f.read_ptr))

/-- `get()` (u32 copy). -/
def get (f : StaticFifoU32) : Option (Except StaticFifoError (Fin 4294967296) × StaticFifoU32) :=
  if f.is_empty then some (Except.error StaticFifoError.Empty, f)
  else
    match f.buf[f.read_ptr]? with
    | none => none
    | some rv => (f.increment_readptr).map fun f2 => (Except.ok rv, f2)

/-- `put(data)` (u32 copy). -/
def put (f : StaticFifoU32) (data : Fin 4294967296) :
    Option (Except StaticFifoError Unit × StaticFifoU32) :=
  match f.is_full with
  | none => none
  | some true => some (Except.error StaticFifoError.Full, f)
  | some false =>
    if f.write_ptr < f.buf.length then
      (increment_writeptr { f with buf := f.buf.set f.write_ptr data }).map
        fun f2 => (Except.ok (), f2)
    else none

/-- `len()` (u32 copy). -/
def len (f : StaticFifoU32) : Nat :=
  if f.read_ptr > f.write_ptr then (f.capacity - f.read_ptr) + f.write_ptr
  else f.write_ptr - f.read_ptr

/-- `max_len()` (u32 copy). -/
def max_len (f : StaticFifoU32) : Nat :=
  f.capacity

end StaticFifoU32

/-- One call of the public FIFO API, with put values of element type `α`. -/
inductive FifoOp (α : Type) where
  | callGet : FifoOp α
  | callPut : α → FifoOp α
  | callIsEmpty : FifoOp α
  | callIsFull : FifoOp α
  | callLen : FifoOp α
  | callMaxLen : FifoOp α
deriving DecidableEq

/-- Observable outcome of one call: `Ok(())`, `Ok(value)`, `Err(e)`, a query
result, or a panic ending the run. -/
inductive FifoEv (α : Type) where
  | evOk : FifoEv α
  | evVal : α → FifoEv α
  | evErr : StaticFifoError → FifoEv α
  | evBool : Bool → FifoEv α
  | evNat : Nat → FifoEv α
  | evHalt : FifoEv α
deriving DecidableEq

/-- Run a call sequence against a `StaticFifoU8`, collecting the observable
outcome of every call; a panic stops the run. -/
def runU8 : StaticFifoU8 → List (FifoOp (Fin 256)) → List (FifoEv (Fin 256))
  | _, [] => []
  | f, FifoOp.callGet :: ops =>
    match f.get with
    | none => [FifoEv.evHalt]
    | some (Except.ok v, f1) => FifoEv.evVal v :: runU8 f1 ops
    | some (Except.error e, f1) => FifoEv.evErr e :: runU8 f1 ops
  | f, FifoOp.callPut v :: ops =>
    match f.put v with
    | none => [FifoEv.evHalt]
    | some (Except.ok _, f1) => FifoEv.evOk :: runU8 f1 ops
    | some (Except.error e, f1) => FifoEv.evErr e :: runU8 f1 ops
  | f, FifoOp.callIsEmpty :: ops => FifoEv.evBool f.is_empty :: runU8 f ops
  | f, FifoOp.callIsFull :: ops =>
    match f.is_full with
    | none => [FifoEv.evHalt]
    | some b => FifoEv.evBool b :: runU8 f ops
  | f, FifoOp.callLen :: ops => FifoEv.evNat f.len :: runU8 f ops
  | f, FifoOp.callMaxLen :: ops => FifoEv.evNat f.max_len :: runU8 f ops

/-- Run a call sequence against a `StaticFifoU32` (same observation scheme). -/
def runU32 : StaticFifoU32 → List (FifoOp (Fin 4294967296)) → List (FifoEv (Fin 4294967296))
  | _, [] => []
  | f, FifoOp.callGet :: ops =>
    match f.get with
    | none => [FifoEv.evHalt]
    | some (Except.ok v, f1) => FifoEv.evVal v :: runU32 f1 ops
    | some (Except.error e, f1) => FifoEv.evErr e :: runU32 f1 ops
  | f, FifoOp.callPut v :: ops =>
    match f.put v with
    | none => [FifoEv.evHalt]
    | some (Except.ok _, f1) => FifoEv.evOk :: runU32 f1 ops
    | some (Except.error e, f1) => FifoEv.evErr e :: runU32 f1 ops
  | f, FifoOp.callIsEmpty :: ops => FifoEv.evBool f.is_empty :: runU32 f ops
  | f, FifoOp.callIsFull :: ops =>
    match f.is_full with
    | none => [FifoEv.evHalt]
    | some b => FifoEv.evBool b :: runU32 f ops
  | f, FifoOp.callLen :: ops => FifoEv.evNat f.len :: runU32 f ops
  | f, FifoOp.callMaxLen :: ops => FifoEv.evNat f.max_len :: runU32 f ops

/-- Translate a u8 call sequence to the corresponding u32 call sequence under
an element-value correspondence `c`. -/
def mapOp (c : Fin 256 → Fin 4294967296) : FifoOp (Fin 256) → FifoOp (Fin 4294967296)
  | FifoOp.callGet => FifoOp.callGet
  | FifoOp.callPut v => FifoOp.callPut (c v)
  | FifoOp.callIsEmpty => FifoOp.callIsEmpty
  | FifoOp.callIsFull => FifoOp.callIsFull
  | FifoOp.callLen => FifoOp.callLen
  | FifoOp.callMaxLen => FifoOp.callMaxLen

/-- Translate observed u8 outcomes to the corresponding u32 outcomes. -/
def mapEv (c : Fin 256 → Fin 4294967296) : FifoEv (Fin 256) → FifoEv (Fin 4294967296)
  | FifoEv.evOk => FifoEv.evOk
  | FifoEv.evVal v => FifoEv.evVal (c v)
  | FifoEv.evErr e => FifoEv.evErr e
  | FifoEv.evBool b => FifoEv.evBool b
  | FifoEv.evNat n => FifoEv.evNat n
  | FifoEv.evHalt => FifoEv.evHalt

/-- Simulation map on states: translate every stored element by `c`, keep the
pointers and the capacity. -/
def toU32 (c : Fin 256 → Fin 4294967296) (f : StaticFifoU8) : StaticFifoU32 :=
  ⟨f.buf.map c, f.read_ptr, f.write_ptr, f.capacity⟩

/-- Concrete value correspondence used by the equivalence witness: embed a u8
value into u32. -/
def castU8U32 : Fin 256 → Fin 4294967296 :=
  fun v => ⟨v.val, by omega⟩

namespace StaticFifoU8

theorem inv_new {N : Nat} (hN : 1 ≤ N) : Inv N (new N) :=
  ⟨rfl, List.length_replicate .., hN, hN⟩

theorem len_lt {N : Nat} {f : StaticFifoU8} (h : Inv N f) : f.len < N := by
  obtain ⟨hc, hb, hr, hw⟩ := h
  unfold len
  split <;> omega

theorem isEmpty_iff {N : Nat} {f : StaticFifoU8} (h : Inv N f) :
    f.is_empty = true ↔ f.len = 0 := by
  obtain ⟨hc, hb, hr, hw⟩ := h
  unfold is_empty len
  rw [decide_eq_true_eq]
  split <;> omega

theorem isFull_eq {N : Nat} {f : StaticFifoU8} (h : Inv N f) :
    f.is_full = some (decide (f.len = N - 1)) := by
  obtain ⟨hc, hb, hr, hw⟩ := h
  unfold is_full
  rw [if_neg (by omega)]
  congr 1
  rw [decide_eq_decide, hc]
  rcases Nat.lt_or_ge (f.write_ptr + 1) N with h1 | h1
  · rw [Nat.mod_eq_of_lt h1]
    unfold len
    split <;> omega
  · have h2 : f.write_ptr + 1 = N := by omega
    rw [h2, Nat.mod_self]
    unfold len
    split <;> omega

theorem idx_ne {N : Nat} {f : StaticFifoU8} (h : Inv N f) {i : Nat} (hi : i < f.len) :
    (f.read_ptr + i) % f.capacity ≠ f.write_ptr := by
  obtain ⟨hc, hb, hr, hw⟩ := h
  unfold len at hi
  rw [hc]
  split at hi
  · rcases Nat.lt_or_ge (f.read_ptr + i) N with h1 | h1
    · rw [Nat.mod_eq_of_lt h1]; omega
    · rw [Nat.mod_eq_sub_mod h1, Nat.mod_eq_of_lt (by omega)]; omega
  · rw [Nat.mod_eq_of_lt (by omega)]; omega

theorem idx_last {N : Nat} {f : StaticFifoU8} (h : Inv N f) :
    (f.read_ptr + f.len) % f.capacity = f.write_ptr := by
  obtain ⟨hc, hb, hr, hw⟩ := h
  unfold len
  rw [hc]
  split
  · have he : f.read_ptr + ((N - f.read_ptr) + f.write_ptr) = N + f.write_ptr := by
      omega
    rw [he, Nat.add_mod_left, Nat.mod_eq_of_lt hw]
  · have he : f.read_ptr + (f.write_ptr - f.read_ptr) = f.write_ptr := by omega
    rw [he, Nat.mod_eq_of_lt hw]

theorem contents_length (f : StaticFifoU8) : f.contents.length = f.len := by
  simp [contents]

theorem get_empty {f : StaticFifoU8} (h : f.is_empty = true) :
    f.get = some (Except.error StaticFifoError.Empty, f) := by
  unfold get
  rw [if_pos h]

theorem put_full {f : StaticFifoU8} (v : Fin 256) (h : f.is_full = some true) :
    f.put v = some (Except.error StaticFifoError.Full, f) := by
  unfold put
  rw [h]

theorem get_ok {N : Nat} {f : StaticFifoU8} (h : Inv N f) (he : f.is_empty = false) :
    ∃ f2 : StaticFifoU8,
      f.get = some (Except.ok (f.buf.getD f.read_ptr 0), f2) ∧
      Inv N f2 ∧ f2.len + 1 = f.len ∧
      f.contents = f.buf.getD f.read_ptr 0 :: f2.contents := by
  obtain ⟨hc, hb, hr, hw⟩ := h
  have hN : 0 < N := by omega
  have hne : f.read_ptr ≠ f.write_ptr := by simpa [is_empty] using he
  have hlen : (len ⟨f.buf, (f.read_ptr + 1) % f.capacity, f.write_ptr, f.capacity⟩) + 1
      = f.len := by
    unfold len
    dsimp only
    rw [hc]
    rcases Nat.lt_or_ge (f.read_ptr + 1) N with h1 | h1
    · rw [Nat.mod_eq_of_lt h1]
      split <;> split <;> omega
    · have h2 : f.read_ptr + 1 = N := by omega
      rw [h2, Nat.mod_self]
      split <;> split <;> omega
  refine ⟨⟨f.buf, (f.read_ptr + 1) % f.capacity, f.write_ptr, f.capacity⟩, ?_, ?_, hlen, ?_⟩
  · unfold get increment_readptr
    rw [if_neg (by rw [he]; exact Bool.false_ne_true)]
    rw [List.getElem?_eq_getElem (show f.read_ptr < f.buf.length by omega)]
    rw [List.getD_eq_getElem f.buf 0 (show f.read_ptr < f.buf.length by omega)]
    dsimp only
    rw [if_neg (show ¬ f.capacity = 0 by omega)]
    rfl
  · exact ⟨hc, hb, by rw [hc]; exact Nat.mod_lt _ hN, hw⟩
  · unfold contents
    dsimp only
    rw [← hlen, List.range_succ_eq_map, List.map_cons, List.map_map]
    congr 1
    · show f.buf.getD ((f.read_ptr + 0) % f.capacity) 0 = f.buf.getD f.read_ptr 0
      rw [Nat.add_zero, hc, Nat.mod_eq_of_lt hr]
    · apply List.map_congr_left
      intro i hi
      show f.buf.getD ((f.read_ptr + Nat.succ i) % f.capacity) 0
          = f.buf.getD (((f.read_ptr + 1) % f.capacity + i) % f.capacity) 0
      rw [Nat.mod_add_mod]
      have hadd : f.read_ptr + 1 + i = f.read_ptr + Nat.succ i := by omega
      rw [hadd]

theorem put_ok {N : Nat} {f : StaticFifoU8} (h : Inv N f) (v : Fin 256)
    (hfu : f.is_full = some false) :
    ∃ f2 : StaticFifoU8,
      f.put v = some (Except.ok (), f2) ∧ Inv N f2 ∧
      f2.len = f.len + 1 ∧ f2.contents = f.contents ++ [v] := by
  have hInv := h
  obtain ⟨hc, hb, hr, hw⟩ := h
  have hN : 0 < N := by omega
  have hnf : (f.write_ptr + 1) % f.capacity ≠ f.read_ptr := by
    unfold is_full at hfu
    rw [if_neg (by omega)] at hfu
    simpa using hfu
  have hlen : len ⟨f.buf.set f.write_ptr v, f.read_ptr, (f.write_ptr + 1) % f.capacity,
      f.capacity⟩ = f.len + 1 := by
    unfold len
    dsimp only
    rw [hc] at hnf ⊢
    rcases Nat.lt_or_ge (f.write_ptr + 1) N with h1 | h1
    · rw [Nat.mod_eq_of_lt h1] at hnf ⊢
      split <;> split <;> omega
    · have h2 : f.write_ptr + 1 = N := by omega
      rw [h2, Nat.mod_self] at hnf ⊢
      split <;> split <;> omega
  refine ⟨⟨f.buf.set f.write_ptr v, f.read_ptr, (f.write_ptr + 1) % f.capacity, f.capacity⟩,
    ?_, ?_, hlen, ?_⟩
  · unfold put increment_writeptr
    rw [hfu]
    dsimp only
    rw [if_pos (show f.write_ptr < f.buf.length by omega)]
    rw [if_neg (show ¬ f.capacity = 0 by omega)]
    rfl
  · exact ⟨hc, by rw [List.length_set]; exact hb, hr, by rw [hc]; exact Nat.mod_lt _ hN⟩
  · unfold contents
    dsimp only
    rw [hlen, List.range_succ, List.map_append]
    congr 1
    · apply List.map_congr_left
      intro i hi
      rw [List.mem_range] at hi
      rw [List.getD_eq_getElem?_getD, List.getD_eq_getElem?_getD,
        List.getElem?_set_ne (idx_ne hInv hi).symm]
    · show [(f.buf.set f.write_ptr v).getD ((f.read_ptr + f.len) % f.capacity) 0] = [v]
      rw [idx_last hInv]
      rw [List.getD_eq_getElem?_getD, List.getElem?_set_eq_of_lt v (by omega)]
      rfl

theorem inv_step_get {N : Nat} {f : StaticFifoU8} {r : Except StaticFifoError (Fin 256)}
    {f2 : StaticFifoU8} (h : Inv N f) (hg : f.get = some (r, f2)) : Inv N f2 := by
  cases he : f.is_empty with
  | true =>
    rw [get_empty he] at hg
    simp only [Option.some.injEq, Prod.mk.injEq] at hg
    exact hg.2 ▸ h
  | false =>
    obtain ⟨f2', hg', h2, _, _⟩ := get_ok h he
    rw [hg'] at hg
    simp only [Option.some.injEq, Prod.mk.injEq] at hg
    exact hg.2 ▸ h2

theorem inv_step_put {N : Nat} {f : StaticFifoU8} {v : Fin 256}
    {r : Except StaticFifoError Unit} {f2 : StaticFifoU8}
    (h : Inv N f) (hp : f.put v = some (r, f2)) : Inv N f2 := by
  have hfe := isFull_eq h
  rcases Bool.eq_false_or_eq_true (decide (f.len = N - 1)) with hd | hd
  · rw [hd] at hfe
    rw [put_full v hfe] at hp
    simp only [Option.some.injEq, Prod.mk.injEq] at hp
    exact hp.2 ▸ h
  · rw [hd] at hfe
    obtain ⟨f2', hp', h2, _, _⟩ := put_ok h v hfe
    rw [hp'] at hp
    simp only [Option.some.injEq, Prod.mk.injEq] at hp
    exact hp.2 ▸ h2

theorem reachable_inv {N : Nat} (hN : 1 ≤ N) {f : StaticFifoU8}
    (hf : Reachable N f) : Inv N f := by
  induction hf with
  | init => exact inv_new hN
  | stepGet f r f2 hre hg ih => exact inv_step_get ih hg
  | stepPut f v r f2 hre hp ih => exact inv_step_put ih hp

theorem isEmpty_eq_decide {N : Nat} {f : StaticFifoU8} (h : Inv N f) :
    f.is_empty = decide (f.len = 0) := by
  rcases he : f.is_empty with _ | _
  · have hx := isEmpty_iff h
    rw [he] at hx
    simp only [Bool.false_eq_true, false_iff] at hx
    simp [hx]
  · have hx := (isEmpty_iff h).mp he
    simp [hx]

theorem get_total {N : Nat} {f : StaticFifoU8} (h : Inv N f) :
    ∃ r f2, f.get = some (r, f2) ∧ Inv N f2 := by
  cases he : f.is_empty with
  | true => exact ⟨_, _, get_empty he, h⟩
  | false =>
    obtain ⟨f2, hg, h2, _, _⟩ := get_ok h he
    exact ⟨_, _, hg, h2⟩

theorem put_total {N : Nat} {f : StaticFifoU8} (h : Inv N f) (v : Fin 256) :
    ∃ r f2, f.put v = some (r, f2) ∧ Inv N f2 := by
  have hfe := isFull_eq h
  rcases Bool.eq_false_or_eq_true (decide (f.len = N - 1)) with hd | hd
  · rw [hd] at hfe
    exact ⟨_, _, put_full v hfe, h⟩
  · rw [hd] at hfe
    obtain ⟨f2, hp, h2, _, _⟩ := put_ok h v hfe
    exact ⟨_, _, hp, h2⟩

theorem reachable_zero {f : StaticFifoU8} (hf : Reachable 0 f) : f = new 0 := by
  induction hf with
  | init => rfl
  | stepGet f r f2 hre hg ih =>
    subst ih
    rw [get_empty (by decide)] at hg
    simp only [Option.some.injEq, Prod.mk.injEq] at hg
    exact hg.2.symm
  | stepPut f v r f2 hre hp ih =>
    subst ih
    rw [show (new 0).put v = none from rfl] at hp
    cases hp

theorem reachable_one {f : StaticFifoU8} (hf : Reachable 1 f) : f = new 1 := by
  induction hf with
  | init => rfl
  | stepGet f r f2 hre hg ih =>
    subst ih
    rw [get_empty (by decide)] at hg
    simp only [Option.some.injEq, Prod.mk.injEq] at hg
    exact hg.2.symm
  | stepPut f v r f2 hre hp ih =>
    subst ih
    rw [put_full v (by decide)] at hp
    simp only [Option.some.injEq, Prod.mk.injEq] at hp
    exact hp.2.symm

theorem getAllOk_spec {N : Nat} : ∀ (k : Nat) {f : StaticFifoU8}, Inv N f → k ≤ f.len →
    ∃ f2, getAllOk k f = some (f.contents.take k, f2) ∧ Inv N f2 ∧
      f2.len + k = f.len ∧ f2.contents = f.contents.drop k := by
  intro k
  induction k with
  | zero =>
    intro f h _
    exact ⟨f, by simp [getAllOk], h, by omega, by simp⟩
  | succ k ih =>
    intro f h hk
    have he : f.is_empty = false := by
      rw [isEmpty_eq_decide h]
      simp only [decide_eq_false_iff_not]
      omega
    obtain ⟨f1, hg, h1, hl1, hct⟩ := get_ok h he
    obtain ⟨f2, hga, h2, hl2, hct2⟩ := ih h1 (by omega)
    refine ⟨f2, ?_, h2, by omega, ?_⟩
    · unfold getAllOk
      rw [hg]
      dsimp only
      rw [hga]
      rw [hct, List.take_succ_cons]
      rfl
    · rw [hct2, hct, List.drop_succ_cons]

theorem putAllOk_spec {N : Nat} : ∀ (vs : List (Fin 256)) {f : StaticFifoU8}, Inv N f →
    f.len + vs.length ≤ N - 1 →
    ∃ f2, putAllOk vs f = some f2 ∧ Inv N f2 ∧
      f2.len = f.len + vs.length ∧ f2.contents = f.contents ++ vs := by
  intro vs
  induction vs with
  | nil =>
    intro f h _
    exact ⟨f, rfl, h, by simp, by simp⟩
  | cons v vs ih =>
    intro f h hk
    simp only [List.length_cons] at hk
    have hnf : f.is_full = some false := by
      rw [isFull_eq h]
      simp only [Option.some.injEq, decide_eq_false_iff_not]
      omega
    obtain ⟨f1, hp, h1, hl1, hct⟩ := put_ok h v hnf
    obtain ⟨f2, hpa, h2, hl2, hct2⟩ := ih h1 (by omega)
    refine ⟨f2, ?_, h2, by simp only [List.length_cons]; omega, ?_⟩
    · unfold putAllOk
      rw [hp]
      dsimp only
      exact hpa
    · rw [hct2, hct, List.append_assoc, List.singleton_append]

theorem runCount_spec {N : Nat} : ∀ (ops : List (Option (Fin 256))) {f : StaticFifoU8},
    Inv N f →
    ∃ P G g, runCount f ops = some (P, G, g) ∧ Inv N g ∧
      g.len + G = f.len + P ∧ G ≤ f.len + P := by
  intro ops
  induction ops with
  | nil =>
    intro f h
    exact ⟨0, 0, f, rfl, h, by omega, by omega⟩
  | cons op ops ih =>
    intro f h
    cases op with
    | none =>
      cases he : f.is_empty with
      | true =>
        obtain ⟨P, G, g, hrun, hg, he1, he2⟩ := ih h
        refine ⟨P, G, g, ?_, hg, he1, he2⟩
        unfold runCount
        rw [get_empty he]
        dsimp only
        exact hrun
      | false =>
        obtain ⟨f1, hget, h1, hl1, _⟩ := get_ok h he
        obtain ⟨P, G, g, hrun, hg, he1, he2⟩ := ih h1
        refine ⟨P, G + 1, g, ?_, hg, by omega, by omega⟩
        unfold runCount
        rw [hget]
        dsimp only
        rw [hrun]
        rfl
    | some v =>
      have hfe := isFull_eq h
      rcases Bool.eq_false_or_eq_true (decide (f.len = N - 1)) with hd | hd
      · rw [hd] at hfe
        obtain ⟨P, G, g, hrun, hg, he1, he2⟩ := ih h
        refine ⟨P, G, g, ?_, hg, he1, he2⟩
        unfold runCount
        rw [put_full v hfe]
        dsimp only
        exact hrun
      · rw [hd] at hfe
        obtain ⟨f1, hput, h1, hl1, _⟩ := put_ok h v hfe
        obtain ⟨P, G, g, hrun, hg, he1, he2⟩ := ih h1
        refine ⟨P + 1, G, g, ?_, hg, by omega, by omega⟩
        unfold runCount
        rw [hput]
        dsimp only
        rw [hrun]
        rfl

end StaticFifoU8

namespace StaticFifoU8

theorem get_shape {f : StaticFifoU8} {r : Except StaticFifoError (Fin 256)}
    {g : StaticFifoU8} (hg : f.get = some (r, g)) :
    (f.is_empty = true ∧ r = Except.error StaticFifoError.Empty ∧ g = f) ∨
    (f.is_empty = false ∧ ∃ w, r = Except.ok w) := by
  cases he : f.is_empty with
  | true =>
    rw [get_empty he] at hg
    simp only [Option.some.injEq, Prod.mk.injEq] at hg
    exact Or.inl ⟨rfl, hg.1.symm, hg.2.symm⟩
  | false =>
    refine Or.inr ⟨rfl, ?_⟩
    unfold get increment_readptr at hg
    rw [if_neg (by rw [he]; exact Bool.false_ne_true)] at hg
    cases hb : f.buf[f.read_ptr]? with
    | none => rw [hb] at hg; cases hg
    | some rv =>
      rw [hb] at hg
      dsimp only at hg
      by_cases hcap : f.capacity = 0
      · rw [if_pos hcap] at hg; cases hg
      · rw [if_neg hcap] at hg
        dsimp only [Option.map] at hg
        simp only [Option.some.injEq, Prod.mk.injEq] at hg
        exact ⟨rv, hg.1.symm⟩

theorem put_shape {f : StaticFifoU8} {v : Fin 256} {r : Except StaticFifoError Unit}
    {g : StaticFifoU8} (hp : f.put v = some (r, g)) :
    (f.is_full = some true ∧ r = Except.error StaticFifoError.Full ∧ g = f) ∨
    (f.is_full = some false ∧ r = Except.ok ()) := by
  unfold put increment_writeptr at hp
  cases hful : f.is_full with
  | none => rw [hful] at hp; cases hp
  | some b =>
    rw [hful] at hp
    cases b with
    | true =>
      dsimp only at hp
      simp only [Option.some.injEq, Prod.mk.injEq] at hp
      exact Or.inl ⟨rfl, hp.1.symm, hp.2.symm⟩
    | false =>
      refine Or.inr ⟨rfl, ?_⟩
      dsimp only at hp
      by_cases hlt : f.write_ptr < f.buf.length
      · rw [if_pos hlt] at hp
        by_cases hcap : f.capacity = 0
        · rw [if_pos hcap] at hp; cases hp
        · rw [if_neg hcap] at hp
          dsimp only [Option.map] at hp
          simp only [Option.some.injEq, Prod.mk.injEq] at hp
          exact hp.1.symm
      · rw [if_neg hlt] at hp; cases hp

end StaticFifoU8


theorem toU32_get (c : Fin 256 → Fin 4294967296) (f : StaticFifoU8) :
    (toU32 c f).get = (f.get).map fun p => (Except.map c p.1, toU32 c p.2) := by
  obtain ⟨buf, rp, wp, cap⟩ := f
  simp only [toU32, StaticFifoU32.get, StaticFifoU8.get, StaticFifoU32.is_empty,
    StaticFifoU8.is_empty, StaticFifoU32.increment_readptr, StaticFifoU8.increment_readptr,
    List.getElem?_map]
  by_cases he : rp = wp <;> by_cases hcap : cap = 0 <;> cases hb : buf[rp]? <;>
    simp [he, hcap, hb, Except.map, toU32]

theorem toU32_put (c : Fin 256 → Fin 4294967296) (f : StaticFifoU8) (v : Fin 256) :
    (toU32 c f).put (c v) = (f.put v).map fun p => (p.1, toU32 c p.2) := by
  obtain ⟨buf, rp, wp, cap⟩ := f
  simp only [toU32, StaticFifoU32.put, StaticFifoU8.put, StaticFifoU32.is_full,
    StaticFifoU8.is_full, StaticFifoU32.increment_writeptr, StaticFifoU8.increment_writeptr,
    List.length_map]
  by_cases hcap : cap = 0 <;> by_cases hfu : (wp + 1) % cap = rp <;>
    by_cases hlt : wp < buf.length <;>
      simp [hcap, hfu, hlt, toU32, List.map_set]

theorem toU32_new (c : Fin 256 → Fin 4294967296) (hc : c 0 = 0) (N : Nat) :
    toU32 c (StaticFifoU8.new N) = StaticFifoU32.new N := by
  unfold toU32 StaticFifoU8.new StaticFifoU32.new
  simp [List.map_replicate, hc]

theorem runU8_toU32 (c : Fin 256 → Fin 4294967296) :
    ∀ (ops : List (FifoOp (Fin 256))) (f : StaticFifoU8),
      runU32 (toU32 c f) (ops.map (mapOp c)) = (runU8 f ops).map (mapEv c) := by
  intro ops
  induction ops with
  | nil => intro f; rfl
  | cons op ops ih =>
    intro f
    cases op with
    | callGet =>
      rw [List.map_cons]
      show runU32 (toU32 c f) (FifoOp.callGet :: ops.map (mapOp c)) = _
      unfold runU32 runU8
      rw [toU32_get c f]
      cases hg : f.get with
      | none => rfl
      | some p =>
        obtain ⟨r, f1⟩ := p
        cases r <;> dsimp only [Option.map, Except.map] <;> rw [ih] <;> rfl
    | callPut v =>
      rw [List.map_cons]
      show runU32 (toU32 c f) (FifoOp.callPut (c v) :: ops.map (mapOp c)) = _
      unfold runU32 runU8
      rw [toU32_put c f v]
      cases hp : f.put v with
      | none => rfl
      | some p =>
        obtain ⟨r, f1⟩ := p
        cases r <;> dsimp only [Option.map] <;> rw [ih] <;> rfl
    | callIsEmpty =>
      rw [List.map_cons]
      show runU32 (toU32 c f) (FifoOp.callIsEmpty :: ops.map (mapOp c)) = _
      unfold runU32 runU8
      rw [show (toU32 c f).is_empty = f.is_empty from rfl, ih]
      rfl
    | callIsFull =>
      rw [List.map_cons]
      show runU32 (toU32 c f) (FifoOp.callIsFull :: ops.map (mapOp c)) = _
      unfold runU32 runU8
      rw [show (toU32 c f).is_full = f.is_full from rfl]
      cases hful : f.is_full with
      | none => rfl
      | some b => rw [ih]; rfl
    | callLen =>
      rw [List.map_cons]
      show runU32 (toU32 c f) (FifoOp.callLen :: ops.map (mapOp c)) = _
      unfold runU32 runU8
      rw [show (toU32 c f).len = f.len from rfl, ih]
      rfl
    | callMaxLen =>
      rw [List.map_cons]
      show runU32 (toU32 c f) (FifoOp.callMaxLen :: ops.map (mapOp c)) = _
      unfold runU32 runU8
      rw [show (toU32 c f).max_len = f.max_len from rfl, ih]
      rfl


open StaticFifoU8 in
/-- C2: for every buffer state, `get()` returns `Err(Empty)` exactly when
`is_empty()` holds and `put(v)` returns `Err(Full)` exactly when `is_full()`
holds, and in both failure cases the buffer is returned exactly as it was. -/
theorem get_put_error_exact (f : StaticFifoU8) (v : Fin 256) :
    ((∃ g, f.get = some (Except.error StaticFifoError.Empty, g)) ↔ f.is_empty = true) ∧
    (∀ g, f.get = some (Except.error StaticFifoError.Empty, g) → g = f) ∧
    ((∃ g, f.put v = some (Except.error StaticFifoError.Full, g)) ↔ f.is_full = some true) ∧
    (∀ g, f.put v = some (Except.error StaticFifoError.Full, g) → g = f) := by
  refine ⟨⟨?_, ?_⟩, ?_, ⟨?_, ?_⟩, ?_⟩
  · rintro ⟨g, hg⟩
    rcases get_shape hg with ⟨h1, _, _⟩ | ⟨_, w, hw⟩
    · exact h1
    · cases hw
  · intro he
    exact ⟨f, get_empty he⟩
  · intro g hg
    rcases get_shape hg with ⟨_, _, h3⟩ | ⟨_, w, hw⟩
    · exact h3
    · cases hw
  · rintro ⟨g, hp⟩
    rcases put_shape hp with ⟨h1, _, _⟩ | ⟨_, hw⟩
    · exact h1
    · cases hw
  · intro hfu
    exact ⟨f, put_full v hfu⟩
  · intro g hp
    rcases put_shape hp with ⟨_, _, h3⟩ | ⟨_, hw⟩
    · exact h3
    · cases hw

/-- Closed instance of `get_put_error_exact` at a concrete state. -/
theorem get_put_error_exact_witness :
    ((∃ g, (StaticFifoU8.new 2).get = some (Except.error StaticFifoError.Empty, g)) ↔
      (StaticFifoU8.new 2).is_empty = true) ∧
    (∀ g, (StaticFifoU8.new 2).get = some (Except.error StaticFifoError.Empty, g) →
      g = StaticFifoU8.new 2) ∧
    ((∃ g, (StaticFifoU8.new 2).put 9 = some (Except.error StaticFifoError.Full, g)) ↔
      (StaticFifoU8.new 2).is_full = some true) ∧
    (∀ g, (StaticFifoU8.new 2).put 9 = some (Except.error StaticFifoError.Full, g) →
      g = StaticFifoU8.new 2) :=
  get_put_error_exact (StaticFifoU8.new 2) 9

open StaticFifoU8 in
/-- C3: in every reachable state for every raw length `N`, `len() = 0` iff
`is_empty()`, and `len() = capacity - 1` (as integers) iff `is_full()` returns
`true`. -/
theorem len_empty_full_consistent (N : Nat) (f : StaticFifoU8) (hf : Reachable N f) :
    (f.len = 0 ↔ f.is_empty = true) ∧
    ((f.len : Int) = (f.capacity : Int) - 1 ↔ f.is_full = some true) := by
  rcases Nat.eq_zero_or_pos N with rfl | hN
  · have hzero := reachable_zero hf
    subst hzero
    refine ⟨⟨fun _ => rfl, fun _ => rfl⟩, ?_, ?_⟩
    · intro hx
      norm_num [StaticFifoU8.len, StaticFifoU8.new] at hx
    · intro hx
      exact absurd hx (by decide)
  · have h := reachable_inv hN hf
    refine ⟨(isEmpty_iff h).symm, ?_⟩
    have hlt := len_lt h
    rw [isFull_eq h]
    obtain ⟨hc, hb, hr, hw⟩ := h
    rw [hc]
    constructor
    · intro hx
      have hx2 : f.len = N - 1 := by omega
      simp [hx2]
    · intro hx
      simp only [Option.some.injEq] at hx
      have := of_decide_eq_true hx
      omega

open StaticFifoU8 in
/-- Closed instance of `len_empty_full_consistent` at a full reachable state. -/
theorem len_empty_full_consistent_witness :
    Reachable 2 ⟨[4, 0], 0, 1, 2⟩ ∧
    ((StaticFifoU8.len ⟨[4, 0], 0, 1, 2⟩ = 0 ↔ StaticFifoU8.is_empty ⟨[4, 0], 0, 1, 2⟩ = true) ∧
     ((StaticFifoU8.len ⟨[4, 0], 0, 1, 2⟩ : Int) =
        (StaticFifoU8.capacity ⟨[4, 0], 0, 1, 2⟩ : Int) - 1 ↔
      StaticFifoU8.is_full ⟨[4, 0], 0, 1, 2⟩ = some true)) := by
  have h1 : StaticFifoU8.put (StaticFifoU8.new 2) 4 =
      some (Except.ok (), ⟨[4, 0], 0, 1, 2⟩) := rfl
  have hr : Reachable 2 ⟨[4, 0], 0, 1, 2⟩ :=
    Reachable.stepPut _ _ _ _ Reachable.init h1
  exact ⟨hr, len_empty_full_consistent 2 _ hr⟩

open StaticFifoU8 in
/-- C4: from a fresh buffer, any mixed call sequence runs without panic and
afterwards `len()` equals the number of successful puts minus the number of
successful gets, a count that always lies in `[0, N-1]`; refused calls leave
it unchanged (they return the state unmodified, as the run threads it). -/
theorem len_counts_puts_gets (N : Nat) (hN : 1 ≤ N) (ops : List (Option (Fin 256))) :
    ∃ P G g, runCount (StaticFifoU8.new N) ops = some (P, G, g) ∧
      G ≤ P ∧ g.len = P - G ∧ P - G ≤ N - 1 := by
  obtain ⟨P, G, g, hrun, hg, he1, he2⟩ := runCount_spec ops (inv_new hN)
  have hlen0 : (StaticFifoU8.new N).len = 0 := rfl
  have hlt := len_lt hg
  exact ⟨P, G, g, hrun, by omega, by omega, by omega⟩

open StaticFifoU8 in
/-- Closed instance of `len_counts_puts_gets`: a run with successful and
refused calls on a raw-length-3 buffer. -/
theorem len_counts_puts_gets_witness :
    1 ≤ 3 ∧
    ∃ P G g,
      runCount (StaticFifoU8.new 3)
        [some 5, some 6, some 7, none, some 7, none, none, none] = some (P, G, g) ∧
      G ≤ P ∧ g.len = P - G ∧ P - G ≤ 3 - 1 :=
  ⟨by decide, len_counts_puts_gets 3 (by decide)
    [some 5, some 6, some 7, none, some 7, none, none, none]⟩

/-- C5 counterexample: at raw length `N = 1` (which satisfies `N ≥ 1`) the
freshly constructed buffer reports `is_full() = true`, not `false`. -/
theorem fresh_buffer_cex :
    (1 : Nat) ≥ 1 ∧ (StaticFifoU8.new 1).is_full = some true ∧
    ¬ (StaticFifoU8.new 1).is_full = some false := by
  exact ⟨by decide, by decide, by decide⟩

/-- C5 (amended): for every `N ≥ 2`, a freshly constructed buffer satisfies
`is_empty() = true`, `is_full() = false`, `len() = 0` and `max_len() = N`
(for `N = 1` the fresh buffer reports full, see `fresh_buffer_cex`). -/
theorem fresh_buffer_state (N : Nat) (hN : 2 ≤ N) :
    (StaticFifoU8.new N).is_empty = true ∧
    (StaticFifoU8.new N).is_full = some false ∧
    (StaticFifoU8.new N).len = 0 ∧
    (StaticFifoU8.new N).max_len = N := by
  refine ⟨rfl, ?_, rfl, rfl⟩
  unfold StaticFifoU8.is_full StaticFifoU8.new
  dsimp only
  rw [if_neg (by omega)]
  simp only [Option.some.injEq, decide_eq_false_iff_not, Nat.zero_add]
  rw [Nat.mod_eq_of_lt (by omega)]
  omega

/-- Closed instance of `fresh_buffer_state` at the raw length 16 used by the
crate's own tests. -/
theorem fresh_buffer_state_witness :
    2 ≤ 16 ∧
    ((StaticFifoU8.new 16).is_empty = true ∧
     (StaticFifoU8.new 16).is_full = some false ∧
     (StaticFifoU8.new 16).len = 0 ∧
     (StaticFifoU8.new 16).max_len = 16) :=
  ⟨by decide, fresh_buffer_state 16 (by decide)⟩

/-- C7: `new()` has no compile-time or constructor-time guard against `N = 0`:
`StaticFifoU8::<0>::new()` constructs a buffer, and operating it then hits the
modulo-by-zero panic (modelled as `none`) in `is_full`/`put`. -/
theorem n0_constructed_and_div0 :
    StaticFifoU8.new 0 = ⟨[], 0, 0, 0⟩ ∧
    (StaticFifoU8.new 0).is_full = none ∧
    (∀ v, (StaticFifoU8.new 0).put v = none) ∧
    (StaticFifoU8.new 0).increment_readptr = none := by
  exact ⟨rfl, rfl, fun v => rfl, rfl⟩

open StaticFifoU8 in
/-- C9: every state of an `N = 1` buffer reachable from `new()` (there is only
the fresh one) reports `is_empty() = true` and `is_full() = true`, and every
`put` fails with `Full`, so an `N = 1` buffer never stores an element. -/
theorem n1_never_stores (f : StaticFifoU8) (hf : Reachable 1 f) :
    f.is_empty = true ∧ f.is_full = some true ∧
    ∀ v, f.put v = some (Except.error StaticFifoError.Full, f) := by
  have h1 := reachable_one hf
  subst h1
  exact ⟨rfl, rfl, fun v => put_full v rfl⟩

open StaticFifoU8 in
/-- Closed instance of `n1_never_stores` at the fresh `N = 1` buffer. -/
theorem n1_never_stores_witness :
    Reachable 1 (StaticFifoU8.new 1) ∧
    ((StaticFifoU8.new 1).is_empty = true ∧
     (StaticFifoU8.new 1).is_full = some true ∧
     ∀ v, (StaticFifoU8.new 1).put v =
       some (Except.error StaticFifoError.Full, StaticFifoU8.new 1)) :=
  ⟨Reachable.init, n1_never_stores _ Reachable.init⟩

open StaticFifoU8 in
/-- C10: for every `N ≥ 1` and every reachable state, both pointers stay in
`[0, N)`, and neither `get` nor `put` panics (no out-of-bounds access, no
modulo by zero): both always return a result. -/
theorem reachable_no_oob (N : Nat) (hN : 1 ≤ N) (f : StaticFifoU8)
    (hf : Reachable N f) :
    f.read_ptr < N ∧ f.write_ptr < N ∧
    (∃ y, f.get = some y) ∧ ∀ v, ∃ y, f.put v = some y := by
  have h := reachable_inv hN hf
  obtain ⟨r, f2, hg, _⟩ := get_total h
  refine ⟨h.2.2.1, h.2.2.2, ⟨_, hg⟩, fun v => ?_⟩
  obtain ⟨r2, f3, hp, _⟩ := put_total h v
  exact ⟨_, hp⟩

open StaticFifoU8 in
/-- Closed instance of `reachable_no_oob` at a wrapped reachable state. -/
theorem reachable_no_oob_witness :
    1 ≤ 2 ∧ Reachable 2 ⟨[4, 0], 1, 1, 2⟩ ∧
    (StaticFifoU8.read_ptr ⟨[4, 0], 1, 1, 2⟩ < 2 ∧
     StaticFifoU8.write_ptr ⟨[4, 0], 1, 1, 2⟩ < 2 ∧
     (∃ y, StaticFifoU8.get ⟨[4, 0], 1, 1, 2⟩ = some y) ∧
     ∀ v, ∃ y, StaticFifoU8.put ⟨[4, 0], 1, 1, 2⟩ v = some y) := by
  have h1 : StaticFifoU8.put (StaticFifoU8.new 2) 4 =
      some (Except.ok (), ⟨[4, 0], 0, 1, 2⟩) := rfl
  have h2 : StaticFifoU8.get ⟨[4, 0], 0, 1, 2⟩ =
      some (Except.ok 4, ⟨[4, 0], 1, 1, 2⟩) := rfl
  have hr : Reachable 2 ⟨[4, 0], 1, 1, 2⟩ :=
    Reachable.stepGet _ _ _ (Reachable.stepPut _ _ _ _ Reachable.init h1) h2
  exact ⟨by decide, hr, reachable_no_oob 2 (by decide) _ hr⟩

open StaticFifoU8 in
/-- C6 counterexample: a reachable, non-full state holding the value 5 on
which `put(7)` succeeds, yet the immediately following `get()` returns 5 (the
oldest element), not the value 7 just written. -/
theorem put_get_roundtrip_cex :
    Reachable 3 ⟨[5, 0, 0], 0, 1, 3⟩ ∧
    StaticFifoU8.put ⟨[5, 0, 0], 0, 1, 3⟩ 7 = some (Except.ok (), ⟨[5, 7, 0], 0, 2, 3⟩) ∧
    StaticFifoU8.get ⟨[5, 7, 0], 0, 2, 3⟩ = some (Except.ok 5, ⟨[5, 7, 0], 1, 2, 3⟩) ∧
    (5 : Fin 256) ≠ 7 := by
  have h1 : StaticFifoU8.put (StaticFifoU8.new 3) 5 =
      some (Except.ok (), ⟨[5, 0, 0], 0, 1, 3⟩) := rfl
  exact ⟨Reachable.stepPut _ _ _ _ Reachable.init h1, rfl, rfl, by decide⟩

open StaticFifoU8 in
/-- C6 (amended): in every reachable state where `put(v)` succeeds (the buffer
is not full), `put(v)` followed immediately by `get()` succeeds and returns
the oldest stored element — which is `v` itself exactly when the buffer was
empty before the put — and afterwards `is_empty()` returns the same value it
returned before the put. -/
theorem put_get_roundtrip (N : Nat) (f : StaticFifoU8) (v : Fin 256)
    (hf : Reachable N f) (hnf : f.is_full = some false) :
    ∃ f1 f2, f.put v = some (Except.ok (), f1) ∧
      f1.get = some (Except.ok ((f.contents ++ [v]).headI), f2) ∧
      f2.is_empty = f.is_empty ∧
      (f.is_empty = true → (f.contents ++ [v]).headI = v) := by
  rcases Nat.eq_zero_or_pos N with rfl | hN
  · rw [reachable_zero hf] at hnf
    exact absurd hnf (by decide)
  · have h := reachable_inv hN hf
    obtain ⟨f1, hp, h1, hl1, hct1⟩ := put_ok h v hnf
    have he1 : f1.is_empty = false := by
      rw [isEmpty_eq_decide h1]
      simp only [decide_eq_false_iff_not]
      omega
    obtain ⟨f2, hg, h2, hl2, hct2⟩ := get_ok h1 he1
    have hval : f1.buf.getD f1.read_ptr 0 = (f.contents ++ [v]).headI := by
      rw [← hct1, hct2]
      rfl
    rw [hval] at hg
    refine ⟨f1, f2, hp, hg, ?_, ?_⟩
    · rw [isEmpty_eq_decide h2, isEmpty_eq_decide h]
      have hx : f2.len = f.len := by omega
      rw [hx]
    · intro he
      have hl0 : f.len = 0 := (isEmpty_iff h).mp he
      have hc0 : f.contents = [] := by
        have := contents_length f
        rw [hl0] at this
        exact List.length_eq_zero.mp this
      rw [hc0]
      rfl

open StaticFifoU8 in
/-- Closed instance of `put_get_roundtrip` on a fresh buffer, where the
returned value is the value just put. -/
theorem put_get_roundtrip_witness :
    Reachable 3 (StaticFifoU8.new 3) ∧
    (StaticFifoU8.new 3).is_full = some false ∧
    ∃ f1 f2, (StaticFifoU8.new 3).put 9 = some (Except.ok (), f1) ∧
      f1.get = some (Except.ok (((StaticFifoU8.new 3).contents ++ [9]).headI), f2) ∧
      f2.is_empty = (StaticFifoU8.new 3).is_empty ∧
      ((StaticFifoU8.new 3).is_empty = true →
        (((StaticFifoU8.new 3).contents ++ [9]).headI : Fin 256) = 9) :=
  ⟨Reachable.init, by decide, put_get_roundtrip 3 _ 9 Reachable.init (by decide)⟩

open StaticFifoU8 in
/-- C1: from any reachable state holding `N - 1` elements, `k` successful
`get()` calls (returning the first `k` stored values in order) followed by `k`
successful `put()` calls (`k < N - 1`) leave `len()` at `N - 1`, and draining
the buffer with `N - 1` further successful `get()` calls returns exactly the
remaining original values followed by the new ones, in first-in-first-out
order, ending on an empty buffer. -/
theorem wraparound_fifo_order (N k : Nat) (f : StaticFifoU8) (hf : Reachable N f)
    (hlen : f.len = N - 1) (hk : k < N - 1) (vs : List (Fin 256))
    (hvs : vs.length = k) :
    ∃ f1 f2 f3,
      getAllOk k f = some (f.contents.take k, f1) ∧
      putAllOk vs f1 = some f2 ∧
      f2.len = N - 1 ∧
      getAllOk (N - 1) f2 = some (f.contents.drop k ++ vs, f3) ∧
      f3.is_empty = true := by
  have hN : 1 ≤ N := by omega
  have h := reachable_inv hN hf
  obtain ⟨f1, hga, h1, hl1, hct1⟩ := getAllOk_spec k h (by omega)
  obtain ⟨f2, hpa, h2, hl2, hct2⟩ := putAllOk_spec vs h1 (by omega)
  have hlen2 : f2.len = N - 1 := by omega
  obtain ⟨f3, hga2, h3, hl3, hct3⟩ := getAllOk_spec (N - 1) h2 (by omega)
  rw [List.take_of_length_le (by rw [contents_length]; omega)] at hga2
  rw [hct2, hct1] at hga2
  refine ⟨f1, f2, f3, hga, hpa, hlen2, hga2, ?_⟩
  rw [isEmpty_eq_decide h3]
  simp only [decide_eq_true_eq]
  omega

open StaticFifoU8 in
/-- Closed instance of `wraparound_fifo_order`: raw length 3 filled with
`[1, 2]`, one get and one re-put of 5, which wraps the pointers past `N`. -/
theorem wraparound_fifo_order_witness :
    Reachable 3 ⟨[1, 2, 0], 0, 2, 3⟩ ∧
    StaticFifoU8.len ⟨[1, 2, 0], 0, 2, 3⟩ = 3 - 1 ∧ 1 < 3 - 1 ∧
    ∃ f1 f2 f3,
      getAllOk 1 ⟨[1, 2, 0], 0, 2, 3⟩ =
        some ((StaticFifoU8.contents ⟨[1, 2, 0], 0, 2, 3⟩).take 1, f1) ∧
      putAllOk [5] f1 = some f2 ∧
      f2.len = 3 - 1 ∧
      getAllOk (3 - 1) f2 =
        some ((StaticFifoU8.contents ⟨[1, 2, 0], 0, 2, 3⟩).drop 1 ++ [5], f3) ∧
      f3.is_empty = true := by
  have h1 : StaticFifoU8.put (StaticFifoU8.new 3) 1 =
      some (Except.ok (), ⟨[1, 0, 0], 0, 1, 3⟩) := rfl
  have h2 : StaticFifoU8.put ⟨[1, 0, 0], 0, 1, 3⟩ 2 =
      some (Except.ok (), ⟨[1, 2, 0], 0, 2, 3⟩) := rfl
  have hr : Reachable 3 ⟨[1, 2, 0], 0, 2, 3⟩ :=
    Reachable.stepPut _ _ _ _ (Reachable.stepPut _ _ _ _ Reachable.init h1) h2
  exact ⟨hr, by decide, by decide,
    wraparound_fifo_order 3 1 _ hr (by decide) (by decide) [5] rfl⟩

/-- C8: `StaticFifoU8` and `StaticFifoU32` are behaviorally identical: running
the same call sequence (put values translated by any element correspondence
`c` with `c 0 = 0`) from fresh buffers of the same raw length produces
corresponding outcome traces for every call, queries included. -/
theorem u8_u32_behaviorally_equal (c : Fin 256 → Fin 4294967296) (hc : c 0 = 0)
    (N : Nat) (ops : List (FifoOp (Fin 256))) :
    runU32 (StaticFifoU32.new N) (ops.map (mapOp c)) =
      (runU8 (StaticFifoU8.new N) ops).map (mapEv c) := by
  rw [← toU32_new c hc N]
  exact runU8_toU32 c ops (StaticFifoU8.new N)

/-- Closed instance of `u8_u32_behaviorally_equal` with the value embedding
`castU8U32` and a call sequence exercising every operation. -/
theorem u8_u32_behaviorally_equal_witness :
    castU8U32 0 = 0 ∧
    runU32 (StaticFifoU32.new 2)
      ([FifoOp.callIsEmpty, FifoOp.callPut 7, FifoOp.callGet, FifoOp.callLen,
        FifoOp.callMaxLen, FifoOp.callGet, FifoOp.callIsFull].map (mapOp castU8U32)) =
    (runU8 (StaticFifoU8.new 2)
      [FifoOp.callIsEmpty, FifoOp.callPut 7, FifoOp.callGet, FifoOp.callLen,
        FifoOp.callMaxLen, FifoOp.callGet, FifoOp.callIsFull]).map (mapEv castU8U32) :=
  ⟨rfl, u8_u32_behaviorally_equal castU8U32 rfl 2
    [FifoOp.callIsEmpty, FifoOp.callPut 7, FifoOp.callGet, FifoOp.callLen,
      FifoOp.callMaxLen, FifoOp.callGet, FifoOp.callIsFull]⟩
